import Mathlib

/-!
Formal model of the combinatorial arithmetic entropy triad implementation.

The Python sources are embedded shallowly:

* `src/triad.py` — the `Kahan` accumulator, the sieves `sieve_primes_bool`,
  `sieve_pi`, `sieve_phi`, the term functions `xi_term` / `e_term` /
  `omega_term`, the scalar evaluators `Xi` / `E` / `Omega` / `F`, and the
  streaming generator `stream_prefix_values`.
* `src/tails.py` — the tail-bound functions over ideal real arithmetic.
* `scripts/sanity_check.py` — `compute_values`, restricted to the data it
  returns that the claims mention (the certified kappa interval).
* `scripts/triad_full.py` — `sieve_totients` and `Omega_terms`, which carry
  explicit input validation; Python exceptions are modelled by `Except`.

Machine floats are idealised as real numbers (`ℝ`); the integer sieves are
executable Lean functions over `ℕ`.  Python `list` tables are Lean `List`s;
the mutable table inside a sieve loop is represented by its indexing
function `ℕ → ℕ`, updated functionally exactly where the Python loop writes,
and the returned table is that function sampled on `0..N`, matching
`list(range(N+1))` evolution in the source.  Python exceptions are modelled
with `Except PyErr`.
-/

/-- The Python exception kinds raised by the scripts under verification. -/
inductive PyErr where
  | valueError
  | zeroDivisionError
  | arithmeticError
  | runtimeError
deriving DecidableEq

namespace Triad

/-! ### Sieve engine (src/triad.py) -/

/-- One outer-loop iteration of `sieve_phi` (src/triad.py lines 59-68):
if `phi[i] == i` (i.e. `i` is prime) then for every multiple `j` of `i`
with `i ≤ j ≤ N` do `phi[j] -= phi[j] // i`.  The table is represented by
its indexing function. -/
def phiStep (N : ℕ) (f : ℕ → ℕ) (i : ℕ) : ℕ → ℕ :=
  if f i = i then
    (fun j => if i ∣ j ∧ i ≤ j ∧ j ≤ N then f j - f j / i else f j)
  else f

/-- The `phi` table of `sieve_phi` after the outer loop `for i in
range(2, N+1)`, starting from `phi = list(range(N+1))` (with the no-op
assignment `phi[1] = 1`). -/
def phiFun (N : ℕ) : ℕ → ℕ :=
  (List.range' 2 (N - 1)).foldl (phiStep N) id

/-- `sieve_phi(N)` from src/triad.py: Euler totients `phi(k)` for `k = 0..N`. -/
def sieve_phi (N : ℕ) : List ℕ :=
  (List.range (N + 1)).map (phiFun N)

/-- One iteration of the `while p * p <= N` loop of `sieve_primes_bool`
(src/triad.py lines 33-46): if the loop guard `p * p ≤ N` still holds and
`is_prime[p]`, mark `is_prime[j] = False` for the multiples
`j = p*p, p*p+p, ..., ≤ N`.  The guard is folded into the step so that the
`while` loop can be embedded as a fold over `p = 2..N`: every `p` past the
loop's exit point (`p * p > N`) leaves the table untouched, exactly as the
exited loop does. -/
def eratoStep (N : ℕ) (f : ℕ → Bool) (p : ℕ) : ℕ → Bool :=
  if p * p ≤ N ∧ f p = true then
    (fun k => if p ∣ k ∧ p * p ≤ k ∧ k ≤ N then false else f k)
  else f

/-- The boolean prime table of `sieve_primes_bool` after the
`while p * p <= N` loop, starting from the table that is `True` exactly at
indices `≥ 2` (entries `0` and `1` are set to `False` up front). -/
def primesBoolFun (N : ℕ) : ℕ → Bool :=
  (List.range' 2 (N - 1)).foldl (eratoStep N) (fun k => decide (2 ≤ k))

/-- `sieve_primes_bool(N)` from src/triad.py: boolean prime table `0..N`.
For `N < 1` the Python function returns `[False] * (N + 1)`, which this
sampling reproduces (the loop body never runs and no index is `≥ 2`). -/
def sieve_primes_bool (N : ℕ) : List Bool :=
  (List.range (N + 1)).map (primesBoolFun N)

/-- The running-count loop of `sieve_pi` (src/triad.py lines 48-57):
`cnt += 1` on each `True` entry, `pi[k] = cnt`. -/
def piAux : List Bool → ℕ → List ℕ
  | [], _ => []
  | b :: rest, cnt =>
    let cnt1 := if b = true then cnt + 1 else cnt
    cnt1 :: piAux rest cnt1

/-- `sieve_pi(N)` from src/triad.py: cumulative prime counts `pi(k)` for
`k = 0..N`. -/
def sieve_pi (N : ℕ) : List ℕ :=
  piAux (sieve_primes_bool N) 0

/-! ### Negative-input behaviour of the triad.py sieves (for C7)

`sieve_phi` and `sieve_pi` accept any Python `int`.  For `N < 0`,
`list(range(N+1))`, `[False]*(N+1)` and `[0]*(N+1)` are all empty and every
loop range is empty, so both functions silently return `[]` — no exception
is ever raised on the negative-input path.  The `ℤ`-input wrappers below
record exactly that behaviour. -/

/-- `sieve_phi(N)` for an arbitrary Python integer `N`: the table is the
evolution of `list(range(N+1))`, which has `(N+1).toNat` entries (empty for
negative `N`). -/
def sieve_phi_py (N : ℤ) : List ℕ :=
  (List.range (N + 1).toNat).map (phiFun N.toNat)

/-- `sieve_primes_bool(N)` for an arbitrary Python integer `N`. -/
def sieve_primes_bool_py (N : ℤ) : List Bool :=
  (List.range (N + 1).toNat).map (primesBoolFun N.toNat)

/-- `sieve_pi(N)` for an arbitrary Python integer `N`. -/
def sieve_pi_py (N : ℤ) : List ℕ :=
  piAux (sieve_primes_bool_py N) 0

/-! ### Specification devices for the totient sieve

`phiPartial m j` describes the table entry `phi[j]` after the outer loop of
`sieve_phi` has processed `i = 2..m`: the factor `(p-1)/p` has been applied
to `j` once for each prime `p ≤ m` dividing `j`.  These are not part of the
Python source; they are the loop invariant the correctness proof runs on. -/

/-- The prime factors of `j` that are at most `m` (those whose pass over
the table has already happened after outer iterations `2..m`). -/
def primesTo (m j : ℕ) : Finset ℕ :=
  j.primeFactors.filter (fun p => p ≤ m)

/-- The partially sieved totient value: `j` divided by the processed primes
and multiplied by their predecessors. -/
def phiPartial (m j : ℕ) : ℕ :=
  (j / ∏ p ∈ primesTo m j, p) * ∏ p ∈ primesTo m j, (p - 1)

/-! ### Kahan compensated accumulator (src/triad.py lines 8-19) -/

/-- The `Kahan` dataclass: running sum `s` and compensation `c`. -/
structure Kahan where
  s : ℝ
  c : ℝ

noncomputable section

/-- `Kahan.add(x)`: `y = x - c; t = s + y; c = (t - s) - y; s = t`. -/
def Kahan.add (k : Kahan) (x : ℝ) : Kahan :=
  let y := x - k.c
  let t := k.s + y
  { s := t, c := (t - k.s) - y }

/-- `Kahan.value()`: return `s`. -/
def Kahan.value (k : Kahan) : ℝ := k.s

/-- A fresh `Kahan()` accumulator fed a list of inputs in order. -/
def kahanFold (l : List ℝ) : Kahan :=
  l.foldl Kahan.add ⟨0, 0⟩

/-! ### Term functions (src/triad.py lines 72-82) -/

/-- `xi_term(i) = 2.0 / (i * i * (i - 1.0))`. -/
def xi_term (i : ℕ) : ℝ :=
  2 / ((i : ℝ) * (i : ℝ) * ((i : ℝ) - 1))

/-- `e_term(i) = log2(i) / (i * i)`. -/
def e_term (i : ℕ) : ℝ :=
  Real.logb 2 (i : ℝ) / ((i : ℝ) * (i : ℝ))

/-- `omega_term(i, phi_i, pi_i) = 1.0 / (i * (phi_i + pi_i))` on the valid
(positive-denominator) domain used by the evaluators; the exceptional
behaviour of the Python float division is modelled separately by
`omega_term_py`. -/
def omega_term (i : ℕ) (phi_i pi_i : ℕ) : ℝ :=
  1 / ((i : ℝ) * ((phi_i : ℝ) + (pi_i : ℝ)))

/-! ### Scalar (single-shot) evaluators (src/triad.py lines 86-117) -/

/-- `Xi(n) = sum_{i=3}^n 2/(i^2(i-1))`, accumulated with a fresh Kahan. -/
def Xi (n : ℕ) : ℝ :=
  if n < 3 then 0 else (kahanFold ((List.range' 3 (n - 2)).map xi_term)).value

/-- `E(n) = sum_{i=2}^n log2(i)/i^2`, accumulated with a fresh Kahan. -/
def E (n : ℕ) : ℝ :=
  if n < 2 then 0 else (kahanFold ((List.range' 2 (n - 1)).map e_term)).value

/-- The Omega summand read off the tables: `omega_term(i, phi[i], pi[i])`. -/
def omTermAt (phi pi : List ℕ) (i : ℕ) : ℝ :=
  omega_term i (phi.getD i 0) (pi.getD i 0)

/-- `Omega(n) = sum_{i=2}^n 1/[i (phi(i)+pi(i))]`, accumulated with a fresh
Kahan, reading the `phi` and `pi` tables at index `i`. -/
def Omega (n : ℕ) (phi pi : List ℕ) : ℝ :=
  if n < 2 then 0
  else (kahanFold ((List.range' 2 (n - 1)).map (omTermAt phi pi))).value

/-- `F(n) = Xi(n) + Omega(n) - E(n)`. -/
def F (n : ℕ) (phi pi : List ℕ) : ℝ :=
  Xi n + Omega n phi pi - E n

/-! ### Streaming prefix engine (src/triad.py lines 119-142) -/

/-- The loop state of `stream_prefix_values`: three Kahan accumulators and
the three last-published values `xi_val`, `om_val`, `e_val`. -/
structure StreamState where
  xi_acc : Kahan
  om_acc : Kahan
  e_acc : Kahan
  xi_val : ℝ
  om_val : ℝ
  e_val : ℝ

/-- One iteration of the `for n in range(1, N+1)` loop of
`stream_prefix_values`: feed the Xi accumulator when `n >= 3`, the E and
Omega accumulators when `n >= 2`, then yield
`(n, xi_val, om_val, e_val, xi_val + om_val - e_val)`. -/
def streamStep (phi pi : List ℕ) (st : StreamState) (n : ℕ) :
    StreamState × (ℕ × ℝ × ℝ × ℝ × ℝ) :=
  let st1 : StreamState :=
    if 3 ≤ n then
      let acc := st.xi_acc.add (xi_term n)
      { st with xi_acc := acc, xi_val := acc.value }
    else st
  let st2 : StreamState :=
    if 2 ≤ n then
      let ea := st1.e_acc.add (e_term n)
      let oa := st1.om_acc.add (omTermAt phi pi n)
      { st1 with e_acc := ea, e_val := ea.value, om_acc := oa, om_val := oa.value }
    else st1
  (st2, (n, st2.xi_val, st2.om_val, st2.e_val,
         st2.xi_val + st2.om_val - st2.e_val))

/-- The tail of the stream: run the loop body for `k` further values of
`n`, starting at `n`, from state `st`. -/
def streamAux (phi pi : List ℕ) : StreamState → ℕ → ℕ → List (ℕ × ℝ × ℝ × ℝ × ℝ)
  | _, _, 0 => []
  | st, n, k + 1 =>
    let p := streamStep phi pi st n
    p.2 :: streamAux phi pi p.1 (n + 1) k

/-- `stream_prefix_values(N, phi, pi)`: the full list of yielded records
`(n, Xi(n), Omega(n), E(n), F(n))` for `n = 1..N`, starting from zeroed
accumulators and zeroed published values. -/
def stream_prefix_values (N : ℕ) (phi pi : List ℕ) : List (ℕ × ℝ × ℝ × ℝ × ℝ) :=
  streamAux phi pi ⟨⟨0, 0⟩, ⟨0, 0⟩, ⟨0, 0⟩, 0, 0, 0⟩ 1 N

end

/-! ### Exception behaviour of `omega_term` (src/triad.py lines 80-82)

The Python body is `return 1.0 / (i * (phi_i + pi_i))` on machine integers:
it raises `ZeroDivisionError` exactly when the integer denominator is `0`,
and otherwise returns the (exactly representable-as-rational) quotient,
even when the denominator is negative.  `ℚ` captures the mathematical value
of that float division. -/

/-- `omega_term(i, phi_i, pi_i)` with Python's division semantics on
arbitrary integer inputs. -/
def omega_term_py (i phi_i pi_i : ℤ) : Except PyErr ℚ :=
  if i * (phi_i + pi_i) = 0 then .error .zeroDivisionError
  else .ok (1 / ((i * (phi_i + pi_i) : ℤ) : ℚ))

end Triad

namespace TriadFull

/-! ### scripts/triad_full.py -/

/-- `sieve_totients(N)` from scripts/triad_full.py: raises `ValueError` for
`N < 0`, otherwise runs the same totient sieve as `triad.sieve_phi` (its
extra statement `phi[0] = 0` is a no-op on `list(range(N+1))`). -/
def sieve_totients (N : ℤ) : Except PyErr (List ℕ) :=
  if N < 0 then .error .valueError
  else .ok ((List.range (N + 1).toNat).map (Triad.phiFun N.toNat))

/-- The `for i in range(2, N+1)` loop of `Omega_terms` (scripts/triad_full.py
lines 41-48), writing into the zero-initialised table `t` and raising
`ArithmeticError` on the first `i` with `phi[i] + pi[i] <= 0`. -/
def omegaLoop (phi pi : List ℤ) : (ℕ → ℚ) → List ℕ → Except PyErr (ℕ → ℚ)
  | t, [] => .ok t
  | t, i :: rest =>
    let denom := phi.getD i 0 + pi.getD i 0
    if denom ≤ 0 then .error .arithmeticError
    else omegaLoop phi pi
      (fun j => if j = i then 1 / ((i : ℚ) * (denom : ℚ)) else t j) rest

/-- `Omega_terms(N, phi, pi)` from scripts/triad_full.py: `ValueError` when
a table is shorter than `N+1`, `ArithmeticError` on a non-positive
denominator, otherwise the term table `t` sampled on `0..N`. -/
def Omega_terms (N : ℕ) (phi pi : List ℤ) : Except PyErr (List ℚ) :=
  if phi.length < N + 1 ∨ pi.length < N + 1 then .error .valueError
  else (omegaLoop phi pi (fun _ => 0) (List.range' 2 (N - 1))).map
    (fun t => (List.range (N + 1)).map t)

end TriadFull

namespace Tails

noncomputable section

/-! ### src/tails.py -/

/-- The constant `EULER_GAMMA = 0.5772156649015329` from src/tails.py. -/
def EULER_GAMMA : ℝ := 0.5772156649015329

/-- The literal base `2.718281828459045` that src/tails.py passes to `pow`
in `omega_tail_bound`. -/
def E_BASE : ℝ := 2.718281828459045

/-- `xi_tail_bound(n) = 2.0 / (n * n)` after the clamp `n = max(int(n), 2)`. -/
def xi_tail_bound (n : ℤ) : ℝ :=
  2 / (((max n 2 : ℤ) : ℝ) * ((max n 2 : ℤ) : ℝ))

/-- `e_tail_bound(n) = (log(n) + 1.0) / (n * log(2.0))` after the clamp
`n = max(int(n), 2)`. -/
def e_tail_bound (n : ℤ) : ℝ :=
  (Real.log ((max n 2 : ℤ) : ℝ) + 1) / (((max n 2 : ℤ) : ℝ) * Real.log 2)

/-- `omega_tail_bound(n, D) = (pow(2.718281828459045, EULER_GAMMA) *
log(log(n)) + D) / n` after the clamp `n = max(int(n), 3)`. -/
def omega_tail_bound (n : ℤ) (D_omega : ℝ) : ℝ :=
  (E_BASE ^ EULER_GAMMA * Real.log (Real.log ((max n 3 : ℤ) : ℝ)) + D_omega) /
    ((max n 3 : ℤ) : ℝ)

/-- `triad_tail_bound(n, D)` from src/tails.py: the tuple
`(R_Xi, R_E, R_Omega, R_total)`. -/
def triad_tail_bound (n : ℤ) (D_omega : ℝ) : ℝ × ℝ × ℝ × ℝ :=
  let rx := xi_tail_bound n
  let re := e_tail_bound n
  let ro := omega_tail_bound n D_omega
  (rx, re, ro, rx + re + ro)

end

end Tails

namespace Sanity

noncomputable section

/-! ### scripts/sanity_check.py -/

/-- The portion of `compute_values(points, N_ref, D_omega, progress)` that
the certification claims are about: `N = max(max(points), N_ref)` (Python's
`max` raises `ValueError` on an empty `points`), the sieves are built up to
`N`, the prefix record at `N_ref` is captured from the stream (missing
capture raises `RuntimeError`, which happens exactly when no stream record
carries index `N_ref`), and the kappa interval
`(F(N_ref) - R_total(N_ref), F(N_ref) + R_total(N_ref))` is returned. -/
def compute_values (points : List ℕ) (N_ref : ℕ) (D_omega : ℝ) :
    Except PyErr (ℝ × ℝ) :=
  match points with
  | [] => .error .valueError
  | p :: ps =>
    let N := max (ps.foldl max p) N_ref
    let phi := Triad.sieve_phi N
    let pi := Triad.sieve_pi N
    match (Triad.stream_prefix_values N phi pi).find? (fun r => r.1 == N_ref) with
    | none => .error .runtimeError
    | some r =>
      let F_ref := r.2.2.2.2
      let Rtot_ref := (Tails.triad_tail_bound (N_ref : ℤ) D_omega).2.2.2
      .ok (F_ref - Rtot_ref, F_ref + Rtot_ref)

end

end Sanity

/-! ## Proofs -/

namespace Triad

/-- In ideal real arithmetic, a single `add` on a compensation-free
accumulator performs an exact addition and leaves the compensation zero. -/
theorem Kahan.add_exact (s x : ℝ) : Kahan.add ⟨s, 0⟩ x = ⟨s + x, 0⟩ := by
  simp only [Kahan.add, Kahan.mk.injEq]
  constructor <;> ring

/-- Folding `add` over any input list from a compensation-free state sums
exactly. -/
theorem kahan_foldl_exact (l : List ℝ) : ∀ s : ℝ,
    l.foldl Kahan.add ⟨s, 0⟩ = ⟨s + l.sum, 0⟩ := by
  induction l with
  | nil => intro s; simp
  | cons x xs ih =>
    intro s
    rw [List.foldl_cons, Kahan.add_exact, ih, List.sum_cons]
    rw [Kahan.mk.injEq]
    constructor
    · ring
    · rfl

/-- A fresh accumulator fed the list `l` holds exactly `l.sum`. -/
theorem kahanFold_eq (l : List ℝ) : kahanFold l = ⟨l.sum, 0⟩ := by
  have h := kahan_foldl_exact l 0
  rw [kahanFold, h, Kahan.mk.injEq]
  constructor
  · ring
  · rfl

/-- `Xi(n)` is the exact sum of `xi_term` over `i = 3..n`. -/
theorem Xi_eq_sum (n : ℕ) :
    Xi n = ((List.range' 3 (n - 2)).map xi_term).sum := by
  unfold Xi
  by_cases h : n < 3
  · have h2 : n - 2 = 0 := by omega
    simp [h, h2]
  · simp [h, kahanFold_eq, Kahan.value]

/-- `E(n)` is the exact sum of `e_term` over `i = 2..n`. -/
theorem E_eq_sum (n : ℕ) :
    E n = ((List.range' 2 (n - 1)).map e_term).sum := by
  unfold E
  by_cases h : n < 2
  · have h2 : n - 1 = 0 := by omega
    simp [h, h2]
  · simp [h, kahanFold_eq, Kahan.value]

/-- `Omega(n)` is the exact sum of the table-read Omega summands over
`i = 2..n`. -/
theorem Omega_eq_sum (n : ℕ) (phi pi : List ℕ) :
    Omega n phi pi = ((List.range' 2 (n - 1)).map (omTermAt phi pi)).sum := by
  unfold Omega
  by_cases h : n < 2
  · have h2 : n - 1 = 0 := by omega
    simp [h, h2]
  · simp [h, kahanFold_eq, Kahan.value]

end Triad

/-- C10: starting from the initial state `(s = 0, c = 0)`, after any finite
sequence of `add` calls (given as the list `xs` of added inputs, in ideal
real arithmetic) the compensation `c` is `0` and `value()` returns exactly
the sum of the added inputs. -/
theorem claim_C10 (xs : List ℝ) :
    (xs.foldl Triad.Kahan.add ⟨0, 0⟩).c = 0 ∧
    (xs.foldl Triad.Kahan.add ⟨0, 0⟩).value = xs.sum := by
  rw [Triad.kahan_foldl_exact xs 0]
  constructor
  · rfl
  · show (0 : ℝ) + xs.sum = xs.sum
    ring

namespace Triad

/-- One loop iteration of the streaming engine, started from the exact
state holding the sums of all terms with index `< n`, moves to the exact
state for `n + 1` and yields the record at `n`. -/
theorem streamStep_exact (phi pi : List ℕ) (n : ℕ) (hn : 1 ≤ n) :
    streamStep phi pi
      ⟨⟨((List.range' 3 (n - 3)).map xi_term).sum, 0⟩,
       ⟨((List.range' 2 (n - 2)).map (omTermAt phi pi)).sum, 0⟩,
       ⟨((List.range' 2 (n - 2)).map e_term).sum, 0⟩,
       ((List.range' 3 (n - 3)).map xi_term).sum,
       ((List.range' 2 (n - 2)).map (omTermAt phi pi)).sum,
       ((List.range' 2 (n - 2)).map e_term).sum⟩ n =
    (⟨⟨((List.range' 3 (n - 2)).map xi_term).sum, 0⟩,
      ⟨((List.range' 2 (n - 1)).map (omTermAt phi pi)).sum, 0⟩,
      ⟨((List.range' 2 (n - 1)).map e_term).sum, 0⟩,
      ((List.range' 3 (n - 2)).map xi_term).sum,
      ((List.range' 2 (n - 1)).map (omTermAt phi pi)).sum,
      ((List.range' 2 (n - 1)).map e_term).sum⟩,
     (n, ((List.range' 3 (n - 2)).map xi_term).sum,
         ((List.range' 2 (n - 1)).map (omTermAt phi pi)).sum,
         ((List.range' 2 (n - 1)).map e_term).sum,
         ((List.range' 3 (n - 2)).map xi_term).sum +
           ((List.range' 2 (n - 1)).map (omTermAt phi pi)).sum -
           ((List.range' 2 (n - 1)).map e_term).sum)) := by
  by_cases h3 : 3 ≤ n
  · have h2 : 2 ≤ n := by omega
    have exi : List.range' 3 (n - 2) = List.range' 3 (n - 3) ++ [n] := by
      have hn2 : n - 2 = (n - 3) + 1 := by omega
      rw [hn2, List.range'_concat]
      congr 2
      omega
    have eo : List.range' 2 (n - 1) = List.range' 2 (n - 2) ++ [n] := by
      have hn1 : n - 1 = (n - 2) + 1 := by omega
      rw [hn1, List.range'_concat]
      congr 2
      omega
    simp only [streamStep, if_pos h3, if_pos h2, Kahan.add_exact, Kahan.value,
      exi, eo, List.map_append, List.sum_append, List.map_cons, List.map_nil,
      List.sum_cons, List.sum_nil, Prod.mk.injEq, StreamState.mk.injEq,
      Kahan.mk.injEq]
    norm_num
  · by_cases h2 : 2 ≤ n
    · have hn2 : n = 2 := by omega
      subst hn2
      have eo : List.range' 2 (2 - 1) = List.range' 2 (2 - 2) ++ [2] := rfl
      simp only [streamStep, if_neg h3, if_pos h2, Kahan.add_exact, Kahan.value,
        eo, List.map_append, List.sum_append, List.map_cons, List.map_nil,
        List.sum_cons, List.sum_nil, Prod.mk.injEq, StreamState.mk.injEq,
        Kahan.mk.injEq]
      norm_num
    · have hn1 : n = 1 := by omega
      subst hn1
      simp only [streamStep, if_neg h3, if_neg h2, Prod.mk.injEq,
        StreamState.mk.injEq, Kahan.mk.injEq]

/-- Running the loop for `k` indices starting at `n ≥ 1` from the exact
state for `n` yields exactly the records at `n, n+1, ..., n+k-1`, each
holding the exact prefix sums of the three series. -/
theorem streamAux_exact (phi pi : List ℕ) :
    ∀ (k n : ℕ), 1 ≤ n →
      streamAux phi pi
        ⟨⟨((List.range' 3 (n - 3)).map xi_term).sum, 0⟩,
         ⟨((List.range' 2 (n - 2)).map (omTermAt phi pi)).sum, 0⟩,
         ⟨((List.range' 2 (n - 2)).map e_term).sum, 0⟩,
         ((List.range' 3 (n - 3)).map xi_term).sum,
         ((List.range' 2 (n - 2)).map (omTermAt phi pi)).sum,
         ((List.range' 2 (n - 2)).map e_term).sum⟩ n k =
      (List.range' n k).map (fun m =>
        (m, ((List.range' 3 (m - 2)).map xi_term).sum,
            ((List.range' 2 (m - 1)).map (omTermAt phi pi)).sum,
            ((List.range' 2 (m - 1)).map e_term).sum,
            ((List.range' 3 (m - 2)).map xi_term).sum +
              ((List.range' 2 (m - 1)).map (omTermAt phi pi)).sum -
              ((List.range' 2 (m - 1)).map e_term).sum)) := by
  intro k
  induction k with
  | zero =>
    intro n hn
    rfl
  | succ k ih =>
    intro n hn
    rw [List.range'_succ, List.map_cons, streamAux, streamStep_exact phi pi n hn]
    have ih1 := ih (n + 1) (by omega)
    have e1 : n + 1 - 3 = n - 2 := by omega
    have e2 : n + 1 - 2 = n - 1 := by omega
    rw [e1, e2] at ih1
    exact congrArg _ ih1

/-- The streaming engine's full output: the record list for `n = 1..N`,
with every component the exact prefix sum of its series (expressed through
the scalar evaluators, which compute those same sums). -/
theorem stream_prefix_values_eq (N : ℕ) (phi pi : List ℕ) :
    stream_prefix_values N phi pi = (List.range' 1 N).map (fun m =>
      (m, Xi m, Omega m phi pi, E m, Xi m + Omega m phi pi - E m)) := by
  simp only [Xi_eq_sum, Omega_eq_sum, E_eq_sum]
  exact streamAux_exact phi pi N 1 (le_refl 1)

end Triad

/-- C1: for every `N ≥ 1` and every `n` with `1 ≤ n ≤ N`, given phi and pi
tables built by the sieve engine up to `M ≥ N` (hence of length `≥ N+1`),
the `n`-th record yielded by `stream_prefix_values(N, phi, pi)` has its
`Ξ`, `Ω` and `E` components equal to the scalar single-shot evaluators
`Xi(n)`, `Omega(n, phi, pi)` and `E(n)` (and its `F` component is their
recomputed combination). -/
theorem claim_C1 (M N n : ℕ) (hN : 1 ≤ N) (hn : 1 ≤ n) (hnN : n ≤ N)
    (hNM : N ≤ M) :
    (Triad.stream_prefix_values N (Triad.sieve_phi M) (Triad.sieve_pi M))[n - 1]? =
      some (n, Triad.Xi n,
            Triad.Omega n (Triad.sieve_phi M) (Triad.sieve_pi M),
            Triad.E n,
            Triad.Xi n + Triad.Omega n (Triad.sieve_phi M) (Triad.sieve_pi M) -
              Triad.E n) := by
  rw [Triad.stream_prefix_values_eq, List.getElem?_map,
    List.getElem?_range' 1 1 (show n - 1 < N by omega), Option.map_some']
  have h1 : 1 + 1 * (n - 1) = n := by omega
  rw [h1]

/-- Witness for C1 at `M = 3`, `N = 2`, `n = 2`. -/
theorem claim_C1_witness :
    (Triad.stream_prefix_values 2 (Triad.sieve_phi 3) (Triad.sieve_pi 3))[2 - 1]? =
      some (2, Triad.Xi 2,
            Triad.Omega 2 (Triad.sieve_phi 3) (Triad.sieve_pi 3),
            Triad.E 2,
            Triad.Xi 2 + Triad.Omega 2 (Triad.sieve_phi 3) (Triad.sieve_pi 3) -
              Triad.E 2) :=
  claim_C1 3 2 2 (by norm_num) (by norm_num) (by norm_num) (by norm_num)

/-- C9: for every `N ≥ 1` and adequate tables, `stream_prefix_values`
yields exactly `N` records; the record at position `n - 1` carries first
component `n` (so the first components are `1, 2, ..., N` in strictly
increasing order), its fifth component is recomputed as
`Ξ(n) + Ω(n) − E(n)` from the three current accumulator values, the `Ξ`
component is `0` for `n < 3`, and the `E` and `Ω` components are `0` for
`n < 2`. -/
theorem claim_C9 (N : ℕ) (phi pi : List ℕ) (hN : 1 ≤ N)
    (hphi : N + 1 ≤ phi.length) (hpi : N + 1 ≤ pi.length) :
    (Triad.stream_prefix_values N phi pi).length = N ∧
    ∀ n, 1 ≤ n → n ≤ N →
      (Triad.stream_prefix_values N phi pi)[n - 1]? =
        some (n, Triad.Xi n, Triad.Omega n phi pi, Triad.E n,
              Triad.Xi n + Triad.Omega n phi pi - Triad.E n) ∧
      (n < 3 → Triad.Xi n = 0) ∧
      (n < 2 → Triad.E n = 0 ∧ Triad.Omega n phi pi = 0) := by
  constructor
  · rw [Triad.stream_prefix_values_eq, List.length_map, List.length_range']
  · intro n hn hnN
    refine ⟨?_, ?_, ?_⟩
    · rw [Triad.stream_prefix_values_eq, List.getElem?_map,
        List.getElem?_range' 1 1 (show n - 1 < N by omega), Option.map_some']
      have h1 : 1 + 1 * (n - 1) = n := by omega
      rw [h1]
    · intro h
      simp [Triad.Xi, h]
    · intro h
      constructor
      · simp [Triad.E, h]
      · simp [Triad.Omega, h]

/-- Witness for C9 at `N = 1` with tables of length `2`. -/
theorem claim_C9_witness :
    (Triad.stream_prefix_values 1 [0, 1] [0, 0]).length = 1 ∧
    ∀ n, 1 ≤ n → n ≤ 1 →
      (Triad.stream_prefix_values 1 [0, 1] [0, 0])[n - 1]? =
        some (n, Triad.Xi n, Triad.Omega n [0, 1] [0, 0], Triad.E n,
              Triad.Xi n + Triad.Omega n [0, 1] [0, 0] - Triad.E n) ∧
      (n < 3 → Triad.Xi n = 0) ∧
      (n < 2 → Triad.E n = 0 ∧ Triad.Omega n [0, 1] [0, 0] = 0) :=
  claim_C9 1 [0, 1] [0, 0] (by norm_num) (by decide) (by decide)

namespace Triad

/-- No prime factor is `≤ 1`, so nothing has been processed while `m ≤ 1`. -/
theorem primesTo_of_le_one (m j : ℕ) (hm : m ≤ 1) : primesTo m j = ∅ := by
  apply Finset.filter_eq_empty_iff.mpr
  intro p hp hpm
  have h2 := (Nat.prime_of_mem_primeFactors hp).two_le
  omega

/-- Before any outer iteration acts, the table still holds `j` at `j`. -/
theorem phiPartial_of_le_one (m j : ℕ) (hm : m ≤ 1) : phiPartial m j = j := by
  simp [phiPartial, primesTo_of_le_one m j hm]

/-- Entry `0` stays `0` through the whole sieve. -/
theorem phiPartial_zero (m : ℕ) : phiPartial m 0 = 0 := by
  simp [phiPartial, primesTo]

/-- The processed primes divide `j`. -/
theorem prod_primesTo_dvd (m j : ℕ) : (∏ p ∈ primesTo m j, p) ∣ j :=
  dvd_trans (Finset.prod_dvd_prod_of_subset _ _ _ (Finset.filter_subset _ _))
    (Nat.prod_primeFactors_dvd j)

/-- The product of processed primes is positive. -/
theorem prod_primesTo_pos (m j : ℕ) : 0 < ∏ p ∈ primesTo m j, p :=
  Finset.prod_pos fun p hp =>
    (Nat.prime_of_mem_primeFactors (Finset.mem_of_mem_filter p hp)).pos

/-- Once some prime factor of `j` has been processed, the table entry has
strictly dropped below `j`. -/
theorem phiPartial_lt_of_nonempty (m j : ℕ) (hj : 1 ≤ j)
    (h : (primesTo m j).Nonempty) : phiPartial m j < j := by
  have hd := prod_primesTo_dvd m j
  have hpos := prod_primesTo_pos m j
  have hdivpos : 0 < j / ∏ p ∈ primesTo m j, p :=
    Nat.div_pos (Nat.le_of_dvd (by omega) hd) hpos
  have hlt : (∏ p ∈ primesTo m j, (p - 1)) < ∏ p ∈ primesTo m j, p := by
    apply Finset.prod_lt_prod_of_nonempty ?_ ?_ h
    · intro p hp
      have := (Nat.prime_of_mem_primeFactors (Finset.mem_of_mem_filter p hp)).two_le
      omega
    · intro p hp
      have := (Nat.prime_of_mem_primeFactors (Finset.mem_of_mem_filter p hp)).two_le
      omega
  calc phiPartial m j
      < (j / ∏ p ∈ primesTo m j, p) * ∏ p ∈ primesTo m j, p :=
        mul_lt_mul_of_pos_left hlt hdivpos
    _ = j := Nat.div_mul_cancel hd

/-- The table entry at `j ≥ 2` still reads `j` exactly when no prime
factor of `j` has been processed — the primality test of the sieve. -/
theorem phiPartial_eq_self_iff (m j : ℕ) (hj : 2 ≤ j) :
    phiPartial m j = j ↔ primesTo m j = ∅ := by
  constructor
  · intro heq
    by_contra hne
    have := phiPartial_lt_of_nonempty m j (by omega)
      (Finset.nonempty_iff_ne_empty.mpr hne)
    omega
  · intro he
    simp [phiPartial, he]

/-- `q ≥ 2` has no prime factor `≤ q - 1` exactly when `q` is prime. -/
theorem primesTo_pred_empty_iff (q : ℕ) (hq : 2 ≤ q) :
    primesTo (q - 1) q = ∅ ↔ Nat.Prime q := by
  constructor
  · intro he
    by_contra hnp
    have hmem : q.minFac ∈ primesTo (q - 1) q := by
      have hp := Nat.minFac_prime (show q ≠ 1 by omega)
      have hd := Nat.minFac_dvd q
      have hne : q.minFac ≠ q := fun h => hnp (Nat.prime_def_minFac.mpr ⟨hq, h⟩)
      have hle : q.minFac ≤ q := Nat.le_of_dvd (by omega) hd
      simp only [primesTo, Finset.mem_filter, Nat.mem_primeFactors]
      exact ⟨⟨hp, hd, by omega⟩, by omega⟩
    rw [he] at hmem
    exact absurd hmem (Finset.not_mem_empty _)
  · intro hp
    apply Finset.filter_eq_empty_iff.mpr
    intro p hpf
    rw [hp.primeFactors, Finset.mem_singleton] at hpf
    subst hpf
    omega

/-- Processing the new prime `m + 1` inserts it into the processed set of
each of its multiples. -/
theorem primesTo_succ_of_prime_dvd (m j : ℕ) (hq : Nat.Prime (m + 1))
    (hdvd : (m + 1) ∣ j) (hj : j ≠ 0) :
    primesTo (m + 1) j = insert (m + 1) (primesTo m j) := by
  ext p
  simp only [primesTo, Finset.mem_insert, Finset.mem_filter, Nat.mem_primeFactors]
  constructor
  · rintro ⟨⟨hp, hpd, _⟩, hpm⟩
    by_cases hpe : p = m + 1
    · exact Or.inl hpe
    · exact Or.inr ⟨⟨hp, hpd, hj⟩, by omega⟩
  · rintro (rfl | ⟨⟨hp, hpd, _⟩, hpm⟩)
    · exact ⟨⟨hq, hdvd, hj⟩, le_refl _⟩
    · exact ⟨⟨hp, hpd, hj⟩, by omega⟩

/-- `m + 1` is never among the primes processed up to `m`. -/
theorem not_mem_primesTo_succ (m j : ℕ) : m + 1 ∉ primesTo m j := by
  intro hmem
  rw [primesTo, Finset.mem_filter] at hmem
  omega

/-- The update `phi[j] -= phi[j] // q` for the fresh prime `q = m + 1`
dividing `j` turns the partially sieved value for `m` into the one for
`m + 1`: the subtraction applies the factor `(q-1)/q` exactly. -/
theorem phiPartial_succ_prime_dvd (m j : ℕ) (hq : Nat.Prime (m + 1))
    (hdvd : (m + 1) ∣ j) (hj : j ≠ 0) :
    phiPartial (m + 1) j = phiPartial m j - phiPartial m j / (m + 1) := by
  have hins := primesTo_succ_of_prime_dvd m j hq hdvd hj
  have hnm := not_mem_primesTo_succ m j
  have hprod : ∏ p ∈ primesTo (m + 1) j, p = (m + 1) * ∏ p ∈ primesTo m j, p := by
    rw [hins, Finset.prod_insert hnm]
  have hprod1 : ∏ p ∈ primesTo (m + 1) j, (p - 1) =
      m * ∏ p ∈ primesTo m j, (p - 1) := by
    rw [hins, Finset.prod_insert hnm]
    norm_num
  have hnotdvd : ¬ (m + 1) ∣ ∏ p ∈ primesTo m j, p := by
    intro hdq
    obtain ⟨p, hpS, hqp⟩ := hq.prime.exists_mem_finset_dvd hdq
    have hp := Nat.prime_of_mem_primeFactors (Finset.mem_of_mem_filter p hpS)
    have hpq : m + 1 = p := (Nat.prime_dvd_prime_iff_eq hq hp).mp hqp
    have hpm : p ≤ m := (Finset.mem_filter.mp hpS).2
    omega
  have hco : Nat.Coprime (m + 1) (∏ p ∈ primesTo m j, p) :=
    (hq.coprime_iff_not_dvd).mpr hnotdvd
  have hmul : (m + 1) * ∏ p ∈ primesTo m j, p ∣ j :=
    hco.mul_dvd_of_dvd_of_dvd hdvd (prod_primesTo_dvd m j)
  have ha : (m + 1) ∣ j / ∏ p ∈ primesTo m j, p := by
    rw [Nat.dvd_div_iff (prod_primesTo_dvd m j)]
    calc (∏ p ∈ primesTo m j, p) * (m + 1)
        = (m + 1) * ∏ p ∈ primesTo m j, p := by ring
      _ ∣ j := hmul
  obtain ⟨b, hb⟩ := ha
  have hquot : j / ∏ p ∈ primesTo (m + 1) j, p = b := by
    rw [hprod, mul_comm (m + 1) _, ← Nat.div_div_eq_div_mul, hb,
      Nat.mul_div_cancel_left b (show 0 < m + 1 by omega)]
  rw [phiPartial, phiPartial, hquot, hprod1, hb]
  have h1 : (m + 1) * b * ∏ p ∈ primesTo m j, (p - 1) =
      (m + 1) * (b * ∏ p ∈ primesTo m j, (p - 1)) := by ring
  rw [h1, Nat.mul_div_cancel_left (b * ∏ p ∈ primesTo m j, (p - 1))
    (show 0 < m + 1 by omega)]
  have h2 : (m + 1) * (b * ∏ p ∈ primesTo m j, (p - 1)) =
      m * (b * ∏ p ∈ primesTo m j, (p - 1)) + b * ∏ p ∈ primesTo m j, (p - 1) := by
    ring
  rw [h2, Nat.add_sub_cancel]
  ring

/-- A composite outer index changes no table entry's specification. -/
theorem phiPartial_succ_not_prime (m j : ℕ) (h : ¬ Nat.Prime (m + 1)) :
    phiPartial (m + 1) j = phiPartial m j := by
  have hset : primesTo (m + 1) j = primesTo m j := by
    ext p
    simp only [primesTo, Finset.mem_filter]
    constructor
    · rintro ⟨hpf, hpm⟩
      have hp := Nat.prime_of_mem_primeFactors hpf
      have hne : p ≠ m + 1 := by
        rintro rfl
        exact h hp
      exact ⟨hpf, by omega⟩
    · rintro ⟨hpf, hpm⟩
      exact ⟨hpf, by omega⟩
  rw [phiPartial, phiPartial, hset]

/-- A prime outer index changes nothing at indices it does not divide. -/
theorem phiPartial_succ_not_dvd (m j : ℕ) (h : ¬ (m + 1) ∣ j) :
    phiPartial (m + 1) j = phiPartial m j := by
  have hset : primesTo (m + 1) j = primesTo m j := by
    ext p
    simp only [primesTo, Finset.mem_filter, Nat.mem_primeFactors]
    constructor
    · rintro ⟨⟨hp, hpd, hj⟩, hpm⟩
      have hne : p ≠ m + 1 := by
        rintro rfl
        exact h hpd
      exact ⟨⟨hp, hpd, hj⟩, by omega⟩
    · rintro ⟨hpf, hpm⟩
      exact ⟨hpf, by omega⟩
  rw [phiPartial, phiPartial, hset]

/-- One outer iteration of the totient sieve preserves the invariant:
from the partially sieved table for `m` it produces the one for `m + 1`. -/
theorem phiStep_spec (N m : ℕ) (hm : 1 ≤ m) (hqN : m + 1 ≤ N) :
    phiStep N (fun j => if j ≤ N then phiPartial m j else j) (m + 1) =
      (fun j => if j ≤ N then phiPartial (m + 1) j else j) := by
  have hq2 : 2 ≤ m + 2 := by omega
  have hdeteq : ((fun j => if j ≤ N then phiPartial m j else j) (m + 1)) =
      phiPartial m (m + 1) := by
    show (if m + 1 ≤ N then phiPartial m (m + 1) else m + 1) = phiPartial m (m + 1)
    exact if_pos hqN
  by_cases hqp : Nat.Prime (m + 1)
  · have hdempty : primesTo m (m + 1) = ∅ := by
      have h := (primesTo_pred_empty_iff (m + 1) hqp.two_le).mpr hqp
      simpa using h
    have hc : ((fun j => if j ≤ N then phiPartial m j else j) (m + 1)) = m + 1 := by
      rw [hdeteq]
      exact (phiPartial_eq_self_iff m (m + 1) hqp.two_le).mpr hdempty
    rw [phiStep, if_pos hc]
    funext j
    by_cases hcond : (m + 1) ∣ j ∧ m + 1 ≤ j ∧ j ≤ N
    · obtain ⟨hd, hle, hjN⟩ := hcond
      rw [if_pos ⟨hd, hle, hjN⟩]
      simp only [if_pos hjN]
      exact (phiPartial_succ_prime_dvd m j hqp hd (by omega)).symm
    · rw [if_neg hcond]
      by_cases hjN : j ≤ N
      · simp only [if_pos hjN]
        by_cases hd : (m + 1) ∣ j
        · have hj0 : j = 0 := by
            have hnle : ¬ (m + 1 ≤ j) := fun hle => hcond ⟨hd, hle, hjN⟩
            rcases Nat.eq_zero_or_pos j with h0 | hpos
            · exact h0
            · exact absurd (Nat.le_of_dvd hpos hd) hnle
          subst hj0
          simp [phiPartial_zero]
        · exact (phiPartial_succ_not_dvd m j hd).symm
      · simp only [if_neg hjN]
  · have hne : (primesTo m (m + 1)).Nonempty := by
      rw [Finset.nonempty_iff_ne_empty]
      intro he
      apply hqp
      apply (primesTo_pred_empty_iff (m + 1) (by omega)).mp
      simpa using he
    have hlt := phiPartial_lt_of_nonempty m (m + 1) (by omega) hne
    have hc : ¬ ((fun j => if j ≤ N then phiPartial m j else j) (m + 1) = m + 1) := by
      rw [hdeteq]
      omega
    rw [phiStep, if_neg hc]
    funext j
    by_cases hjN : j ≤ N
    · simp only [if_pos hjN]
      rw [phiPartial_succ_not_prime m j hqp]
    · simp only [if_neg hjN]

/-- Invariant of the whole outer loop: after processing `i = 2..m`, the
table function is the partially sieved specification for `m` on `0..N`
(and untouched beyond `N`). -/
theorem phiFun_foldl (N : ℕ) : ∀ m, m ≤ N →
    (List.range' 2 (m - 1)).foldl (phiStep N) id =
      fun j => if j ≤ N then phiPartial m j else j := by
  intro m
  induction m with
  | zero =>
    intro _
    funext j
    by_cases hj : j ≤ N
    · simp [hj, phiPartial_of_le_one 0 j (by omega)]
    · simp [hj]
  | succ m ih =>
    intro hmN
    by_cases hm0 : m = 0
    · subst hm0
      funext j
      by_cases hj : j ≤ N
      · simp [hj, phiPartial_of_le_one 1 j (by omega)]
      · simp [hj]
    · have hconcat : List.range' 2 (m + 1 - 1) = List.range' 2 (m - 1) ++ [m + 1] := by
        have h1 : m + 1 - 1 = (m - 1) + 1 := by omega
        rw [h1, List.range'_concat]
        congr 2
        omega
      rw [hconcat, List.foldl_append, ih (by omega), List.foldl_cons,
        List.foldl_nil, phiStep_spec N m (by omega) hmN]

/-- Table entries of `sieve_phi` below `N` are the fully sieved values. -/
theorem phiFun_eq (N j : ℕ) (hj : j ≤ N) : phiFun N j = phiPartial N j := by
  rw [phiFun, phiFun_foldl N N (le_refl N)]
  simp [hj]

/-- The fully sieved value is the Euler totient. -/
theorem phiPartial_eq_totient (i : ℕ) {m : ℕ} (him : i ≤ m) :
    phiPartial m i = i.totient := by
  rcases Nat.eq_zero_or_pos i with rfl | hi1
  · simp [phiPartial_zero]
  have hfull : primesTo m i = i.primeFactors :=
    Finset.filter_true_of_mem fun p hp =>
      le_trans (Nat.le_of_mem_primeFactors hp) him
  have hdvd : (∏ p ∈ i.primeFactors, p) ∣ i := Nat.prod_primeFactors_dvd i
  have hpos : 0 < ∏ p ∈ i.primeFactors, p :=
    Finset.prod_pos fun p hp => (Nat.prime_of_mem_primeFactors hp).pos
  apply Nat.eq_of_mul_eq_mul_right hpos
  rw [phiPartial, hfull]
  calc (i / ∏ p ∈ i.primeFactors, p) * (∏ p ∈ i.primeFactors, (p - 1)) *
        ∏ p ∈ i.primeFactors, p
      = ((i / ∏ p ∈ i.primeFactors, p) * ∏ p ∈ i.primeFactors, p) *
        ∏ p ∈ i.primeFactors, (p - 1) := by ring
    _ = i * ∏ p ∈ i.primeFactors, (p - 1) := by rw [Nat.div_mul_cancel hdvd]
    _ = i.totient * ∏ p ∈ i.primeFactors, p :=
        (Nat.totient_mul_prod_primeFactors i).symm

/-- Indexing `sieve_phi` within bounds reads the final table function. -/
theorem sieve_phi_getElem (N i : ℕ) (hi : i ≤ N) :
    (sieve_phi N)[i]? = some (phiFun N i) := by
  rw [sieve_phi, List.getElem?_map, List.getElem?_range (by omega), Option.map_some']

/-- The totient counts the integers in `[1, i]` coprime to `i`. -/
theorem card_coprime_Icc (i : ℕ) (hi : 1 ≤ i) :
    ((Finset.Icc 1 i).filter (fun j => Nat.gcd j i = 1)).card = i.totient := by
  rcases eq_or_lt_of_le hi with h1 | h2
  · have : i = 1 := h1.symm
    subst this
    decide
  · have hset : (Finset.Icc 1 i).filter (fun j => Nat.gcd j i = 1) =
        (Finset.range i).filter i.Coprime := by
      ext j
      simp only [Finset.mem_filter, Finset.mem_Icc, Finset.mem_range, Nat.Coprime]
      constructor
      · rintro ⟨⟨hj1, hji⟩, hg⟩
        have hne : j ≠ i := by
          rintro rfl
          rw [Nat.gcd_self] at hg
          omega
        exact ⟨by omega, by rw [Nat.gcd_comm]; exact hg⟩
      · rintro ⟨hji, hg⟩
        have hj0 : j ≠ 0 := by
          rintro rfl
          rw [Nat.gcd_zero_right] at hg
          omega
        exact ⟨⟨by omega, by omega⟩, by rw [Nat.gcd_comm]; exact hg⟩
    rw [hset, ← Nat.totient_eq_card_coprime]

end Triad

/-- C5: for every `N ≥ 0`, `sieve_phi(N)` has length `N + 1`, entry `0` is
`0`, and for every `1 ≤ i ≤ N` the entry at `i` is the count of integers
in `[1, i]` coprime to `i` (so `φ(p) = p − 1` for primes `p ≤ N`); in
particular `sieve_phi(10) = [0,1,1,2,2,4,2,6,4,6,4]`. -/
theorem claim_C5 (N i : ℕ) (hiN : i ≤ N) :
    (Triad.sieve_phi N).length = N + 1 ∧
    (Triad.sieve_phi N)[0]? = some 0 ∧
    (1 ≤ i → (Triad.sieve_phi N)[i]? =
      some (((Finset.Icc 1 i).filter (fun j => Nat.gcd j i = 1)).card)) ∧
    (Nat.Prime i → (Triad.sieve_phi N)[i]? = some (i - 1)) ∧
    Triad.sieve_phi 10 = [0, 1, 1, 2, 2, 4, 2, 6, 4, 6, 4] := by
  have hmain : (Triad.sieve_phi N)[i]? = some i.totient := by
    rw [Triad.sieve_phi_getElem N i hiN, Triad.phiFun_eq N i hiN,
      Triad.phiPartial_eq_totient i hiN]
  refine ⟨?_, ?_, ?_, ?_, ?_⟩
  · rw [Triad.sieve_phi, List.length_map, List.length_range]
  · rw [Triad.sieve_phi_getElem N 0 (by omega), Triad.phiFun_eq N 0 (by omega),
      Triad.phiPartial_zero]
  · intro hi1
    rw [hmain, Triad.card_coprime_Icc i hi1]
  · intro hp
    rw [hmain, Nat.totient_prime hp]
  · decide

/-- Witness for C5 at `N = 10`, `i = 7`. -/
theorem claim_C5_witness :
    (Triad.sieve_phi 10).length = 10 + 1 ∧
    (Triad.sieve_phi 10)[0]? = some 0 ∧
    (1 ≤ 7 → (Triad.sieve_phi 10)[7]? =
      some (((Finset.Icc 1 7).filter (fun j => Nat.gcd j 7 = 1)).card)) ∧
    (Nat.Prime 7 → (Triad.sieve_phi 10)[7]? = some (7 - 1)) ∧
    Triad.sieve_phi 10 = [0, 1, 1, 2, 2, 4, 2, 6, 4, 6, 4] :=
  claim_C5 10 7 (by norm_num)

namespace Triad

/-- One guarded iteration of the prime sieve preserves its invariant: after
processing `p = 2..m`, entry `k ≤ N` is `True` iff `k ≥ 2` and no processed
prime `q` (with live guard `q * q ≤ N`) divides `k` with `q * q ≤ k`. -/
theorem eratoStep_spec (N m : ℕ) (hm : 1 ≤ m) (hqN : m + 1 ≤ N) :
    eratoStep N
      (fun k => if k ≤ N then
        decide (2 ≤ k ∧ ∀ q, q ≤ m → Nat.Prime q → q * q ≤ N → q ∣ k → k < q * q)
       else decide (2 ≤ k)) (m + 1) =
    (fun k => if k ≤ N then
        decide (2 ≤ k ∧ ∀ q, q ≤ m + 1 → Nat.Prime q → q * q ≤ N → q ∣ k → k < q * q)
      else decide (2 ≤ k)) := by
  have hdet : ((fun k => if k ≤ N then
      decide (2 ≤ k ∧ ∀ q, q ≤ m → Nat.Prime q → q * q ≤ N → q ∣ k → k < q * q)
      else decide (2 ≤ k)) (m + 1)) =
      decide (2 ≤ m + 1 ∧
        ∀ q, q ≤ m → Nat.Prime q → q * q ≤ N → q ∣ (m + 1) → m + 1 < q * q) := by
    exact if_pos hqN
  have hPprime : (2 ≤ m + 1 ∧
      ∀ q, q ≤ m → Nat.Prime q → q * q ≤ N → q ∣ (m + 1) → m + 1 < q * q) ↔
      Nat.Prime (m + 1) := by
    constructor
    · rintro ⟨h2, hall⟩
      by_contra hnp
      have hp := Nat.minFac_prime (show m + 1 ≠ 1 by omega)
      have hd := Nat.minFac_dvd (m + 1)
      have hsq := Nat.minFac_sq_le_self (show 0 < m + 1 by omega) hnp
      rw [pow_two] at hsq
      have hle : (m + 1).minFac ≤ m := by
        have hne : (m + 1).minFac ≠ m + 1 := fun h =>
          hnp (Nat.prime_def_minFac.mpr ⟨by omega, h⟩)
        have := Nat.le_of_dvd (by omega) hd
        omega
      have hcon := hall (m + 1).minFac hle hp (by omega) hd
      omega
    · intro hp
      refine ⟨hp.two_le, ?_⟩
      intro q hq1 hq2 hq3 hq4
      have heq : q = m + 1 := (Nat.prime_dvd_prime_iff_eq hq2 hp).mp hq4
      omega
  by_cases hg : (m + 1) * (m + 1) ≤ N
  · by_cases hp : Nat.Prime (m + 1)
    · rw [eratoStep,
        if_pos ⟨hg, by rw [if_pos hqN]; exact decide_eq_true (hPprime.mpr hp)⟩]
      funext k
      by_cases hkN : k ≤ N
      · simp only [if_pos hkN]
        by_cases hmark : (m + 1) ∣ k ∧ (m + 1) * (m + 1) ≤ k ∧ k ≤ N
        · rw [if_pos hmark]
          symm
          rw [decide_eq_false_iff_not]
          rintro ⟨h2, hall⟩
          have := hall (m + 1) (le_refl _) hp hg hmark.1
          have := hmark.2.1
          omega
        · rw [if_neg hmark]
          apply decide_eq_decide.mpr
          constructor
          · rintro ⟨h2, hall⟩
            refine ⟨h2, ?_⟩
            intro q hq1 hq2 hq3 hq4
            by_cases hqe : q = m + 1
            · subst hqe
              have hnle : ¬ ((m + 1) * (m + 1) ≤ k) := fun h => hmark ⟨hq4, h, hkN⟩
              omega
            · exact hall q (by omega) hq2 hq3 hq4
          · rintro ⟨h2, hall⟩
            exact ⟨h2, fun q hq1 hq2 hq3 hq4 => hall q (by omega) hq2 hq3 hq4⟩
      · simp only [if_neg hkN]
        rw [if_neg (fun h : (m + 1) ∣ k ∧ (m + 1) * (m + 1) ≤ k ∧ k ≤ N => hkN h.2.2)]
    · have hfneq : ¬ ((m + 1) * (m + 1) ≤ N ∧ ((fun k => if k ≤ N then
          decide (2 ≤ k ∧ ∀ q, q ≤ m → Nat.Prime q → q * q ≤ N → q ∣ k → k < q * q)
          else decide (2 ≤ k)) (m + 1)) = true) := by
        rintro ⟨-, hf⟩
        rw [hdet] at hf
        exact hp (hPprime.mp (of_decide_eq_true hf))
      rw [eratoStep, if_neg hfneq]
      funext k
      by_cases hkN : k ≤ N
      · simp only [if_pos hkN]
        apply decide_eq_decide.mpr
        constructor
        · rintro ⟨h2, hall⟩
          refine ⟨h2, ?_⟩
          intro q hq1 hq2 hq3 hq4
          have hqe : q ≠ m + 1 := fun h => hp (h ▸ hq2)
          exact hall q (by omega) hq2 hq3 hq4
        · rintro ⟨h2, hall⟩
          exact ⟨h2, fun q hq1 hq2 hq3 hq4 => hall q (by omega) hq2 hq3 hq4⟩
      · simp only [if_neg hkN]
  · have hgneq : ¬ ((m + 1) * (m + 1) ≤ N ∧ ((fun k => if k ≤ N then
        decide (2 ≤ k ∧ ∀ q, q ≤ m → Nat.Prime q → q * q ≤ N → q ∣ k → k < q * q)
        else decide (2 ≤ k)) (m + 1)) = true) := fun h => hg h.1
    rw [eratoStep, if_neg hgneq]
    funext k
    by_cases hkN : k ≤ N
    · simp only [if_pos hkN]
      apply decide_eq_decide.mpr
      constructor
      · rintro ⟨h2, hall⟩
        refine ⟨h2, ?_⟩
        intro q hq1 hq2 hq3 hq4
        have hqe : q ≠ m + 1 := by
          rintro rfl
          exact hg hq3
        exact hall q (by omega) hq2 hq3 hq4
      · rintro ⟨h2, hall⟩
        exact ⟨h2, fun q hq1 hq2 hq3 hq4 => hall q (by omega) hq2 hq3 hq4⟩
    · simp only [if_neg hkN]

/-- Invariant of the whole prime-sieve loop after processing `p = 2..m`. -/
theorem primesBool_foldl (N : ℕ) : ∀ m, m ≤ N →
    (List.range' 2 (m - 1)).foldl (eratoStep N) (fun k => decide (2 ≤ k)) =
      fun k => if k ≤ N then
        decide (2 ≤ k ∧ ∀ q, q ≤ m → Nat.Prime q → q * q ≤ N → q ∣ k → k < q * q)
      else decide (2 ≤ k) := by
  intro m
  induction m with
  | zero =>
    intro _
    funext k
    have h0 : (List.range' 2 (0 - 1)).foldl (eratoStep N) (fun k => decide (2 ≤ k)) =
        (fun k : ℕ => decide (2 ≤ k)) := rfl
    by_cases hk : k ≤ N
    · rw [h0, if_pos hk]
      apply decide_eq_decide.mpr
      constructor
      · intro h2
        refine ⟨h2, ?_⟩
        intro q hq1 hq2 hq3 hq4
        have := hq2.two_le
        omega
      · rintro ⟨h2, -⟩
        exact h2
    · rw [h0, if_neg hk]
  | succ m ih =>
    intro hmN
    by_cases hm0 : m = 0
    · subst hm0
      funext k
      have h0 : (List.range' 2 (1 - 1)).foldl (eratoStep N) (fun k => decide (2 ≤ k)) =
          (fun k : ℕ => decide (2 ≤ k)) := rfl
      by_cases hk : k ≤ N
      · rw [h0, if_pos hk]
        apply decide_eq_decide.mpr
        constructor
        · intro h2
          refine ⟨h2, ?_⟩
          intro q hq1 hq2 hq3 hq4
          have := hq2.two_le
          omega
        · rintro ⟨h2, -⟩
          exact h2
      · rw [h0, if_neg hk]
    · have hconcat : List.range' 2 (m + 1 - 1) = List.range' 2 (m - 1) ++ [m + 1] := by
        have h1 : m + 1 - 1 = (m - 1) + 1 := by omega
        rw [h1, List.range'_concat]
        congr 2
        omega
      rw [hconcat, List.foldl_append, ih (by omega), List.foldl_cons,
        List.foldl_nil, eratoStep_spec N m (by omega) hmN]

/-- Within bounds, the final boolean table tests primality exactly. -/
theorem primesBoolFun_eq (N k : ℕ) (hk : k ≤ N) :
    primesBoolFun N k = decide (Nat.Prime k) := by
  rw [primesBoolFun, primesBool_foldl N N (le_refl N)]
  simp only [if_pos hk]
  apply decide_eq_decide.mpr
  constructor
  · rintro ⟨h2, hall⟩
    by_contra hnp
    have hp := Nat.minFac_prime (show k ≠ 1 by omega)
    have hd := Nat.minFac_dvd k
    have hsq := Nat.minFac_sq_le_self (show 0 < k by omega) hnp
    rw [pow_two] at hsq
    have hfle : k.minFac ≤ N := by
      have := Nat.le_of_dvd (show 0 < k by omega) hd
      omega
    have hcon := hall k.minFac hfle hp (by omega) hd
    omega
  · intro hp
    refine ⟨hp.two_le, ?_⟩
    intro q hq1 hq2 hq3 hq4
    have heq : q = k := (Nat.prime_dvd_prime_iff_eq hq2 hp).mp hq4
    subst heq
    have := hp.two_le
    nlinarith

/-- `piAux` preserves the length of the boolean table. -/
theorem piAux_length : ∀ (l : List Bool) (c : ℕ), (piAux l c).length = l.length := by
  intro l
  induction l with
  | nil =>
    intro c
    rfl
  | cons b rest ih =>
    intro c
    simp [piAux, ih]

/-- Entry `k` of the running count is the carried count plus the number of
`True` entries among the first `k + 1` booleans. -/
theorem piAux_getElem : ∀ (l : List Bool) (c k : ℕ), k < l.length →
    (piAux l c)[k]? = some (c + (l.take (k + 1)).countP id) := by
  intro l
  induction l with
  | nil =>
    intro c k hk
    simp at hk
  | cons b rest ih =>
    intro c k hk
    cases k with
    | zero =>
      cases b <;> simp [piAux, List.countP_cons, List.countP_nil]
    | succ k =>
      have hk' : k < rest.length := by
        simpa using hk
      simp only [piAux]
      rw [List.getElem?_cons_succ, ih _ k hk', List.take_succ_cons,
        List.countP_cons]
      cases b <;> simp <;> omega

/-- Entry `i ≤ N` of `sieve_pi` counts the primes `≤ i`. -/
theorem sieve_pi_getElem (N i : ℕ) (hi : i ≤ N) :
    (sieve_pi N)[i]? = some (Nat.count Nat.Prime (i + 1)) := by
  have hlen : i < (sieve_primes_bool N).length := by
    rw [sieve_primes_bool, List.length_map, List.length_range]
    omega
  rw [sieve_pi, piAux_getElem (sieve_primes_bool N) 0 i hlen, Nat.zero_add]
  congr 1
  rw [sieve_primes_bool, ← List.map_take, List.take_range]
  have hmin : (i + 1) ⊓ (N + 1) = i + 1 := by omega
  rw [hmin, List.countP_map]
  have hcong : ∀ x ∈ List.range (i + 1),
      (id ∘ primesBoolFun N) x = true ↔ (fun y => decide (Nat.Prime y)) x = true := by
    intro x hx
    have hxi : x ≤ N := by
      have := List.mem_range.mp hx
      omega
    simp only [Function.comp, id]
    rw [primesBoolFun_eq N x hxi]
  rw [List.countP_congr hcong]
  rfl

end Triad

/-- C6: for every `N ≥ 0`, `sieve_pi(N)` has length `N + 1`; entry `i ≤ N`
equals the number of primes `≤ i`; the table is monotone non-decreasing;
`π(1) = 0` and `π(2) = 1` when those indices exist; and
`sieve_pi(10) = [0,0,1,2,2,3,3,4,4,4,4]`. -/
theorem claim_C6 (N i j : ℕ) (hiN : i ≤ N) (hij : i ≤ j) (hjN : j ≤ N) :
    (Triad.sieve_pi N).length = N + 1 ∧
    (Triad.sieve_pi N)[i]? = some (Nat.count Nat.Prime (i + 1)) ∧
    (∀ ci cj : ℕ, (Triad.sieve_pi N)[i]? = some ci →
      (Triad.sieve_pi N)[j]? = some cj → ci ≤ cj) ∧
    (1 ≤ N → (Triad.sieve_pi N)[1]? = some 0) ∧
    (2 ≤ N → (Triad.sieve_pi N)[2]? = some 1) ∧
    Triad.sieve_pi 10 = [0, 0, 1, 2, 2, 3, 3, 4, 4, 4, 4] := by
  refine ⟨?_, ?_, ?_, ?_, ?_, ?_⟩
  · rw [Triad.sieve_pi, Triad.piAux_length, Triad.sieve_primes_bool,
      List.length_map, List.length_range]
  · exact Triad.sieve_pi_getElem N i hiN
  · intro ci cj hci hcj
    rw [Triad.sieve_pi_getElem N i hiN] at hci
    rw [Triad.sieve_pi_getElem N j hjN] at hcj
    have h1 := Option.some.inj hci
    have h2 := Option.some.inj hcj
    rw [← h1, ← h2]
    exact Nat.count_monotone Nat.Prime (by omega)
  · intro h1
    rw [Triad.sieve_pi_getElem N 1 h1]
    decide
  · intro h2
    rw [Triad.sieve_pi_getElem N 2 h2]
    decide
  · decide

/-- Witness for C6 at `N = 10`, `i = 3`, `j = 5`. -/
theorem claim_C6_witness :
    (Triad.sieve_pi 10).length = 10 + 1 ∧
    (Triad.sieve_pi 10)[3]? = some (Nat.count Nat.Prime (3 + 1)) ∧
    (∀ ci cj : ℕ, (Triad.sieve_pi 10)[3]? = some ci →
      (Triad.sieve_pi 10)[5]? = some cj → ci ≤ cj) ∧
    (1 ≤ 10 → (Triad.sieve_pi 10)[1]? = some 0) ∧
    (2 ≤ 10 → (Triad.sieve_pi 10)[2]? = some 1) ∧
    Triad.sieve_pi 10 = [0, 0, 1, 2, 2, 3, 3, 4, 4, 4, 4] :=
  claim_C6 10 3 5 (by norm_num) (by norm_num) (by norm_num)

namespace TriadFull

/-- The term loop of `Omega_terms` fails exactly when some processed index
has a non-positive denominator. -/
theorem omegaLoop_isOk (phi pi : List ℤ) : ∀ (l : List ℕ) (t : ℕ → ℚ),
    (omegaLoop phi pi t l).isOk = false ↔
      ∃ k ∈ l, phi.getD k 0 + pi.getD k 0 ≤ 0 := by
  intro l
  induction l with
  | nil =>
    intro t
    simp [omegaLoop, Except.isOk, Except.toBool]
  | cons i rest ih =>
    intro t
    by_cases hd : phi.getD i 0 + pi.getD i 0 ≤ 0
    · simp only [omegaLoop, if_pos hd]
      constructor
      · intro _
        exact ⟨i, List.mem_cons_self i rest, hd⟩
      · intro _
        rfl
    · simp only [omegaLoop, if_neg hd]
      rw [ih]
      constructor
      · rintro ⟨k, hk, hle⟩
        exact ⟨k, List.mem_cons_of_mem _ hk, hle⟩
      · rintro ⟨k, hk, hle⟩
        rcases List.mem_cons.mp hk with rfl | hk'
        · exact absurd hle hd
        · exact ⟨k, hk', hle⟩

end TriadFull

/-- C7: the claim says the triad.py sieve engine fails fast on negative `N`.
The code does not: for every `N < 0`, `sieve_phi` and `sieve_pi` silently
return the empty (degenerate) table, while only the script-level
`sieve_totients` of triad_full.py raises `ValueError`.  This theorem
evaluates the code on the negative-input path. -/
theorem claim_C7 (N : ℤ) (hN : N < 0) :
    Triad.sieve_phi_py N = [] ∧ Triad.sieve_pi_py N = [] ∧
    TriadFull.sieve_totients N = Except.error PyErr.valueError := by
  have h0 : (N + 1).toNat = 0 := by omega
  refine ⟨?_, ?_, ?_⟩
  · rw [Triad.sieve_phi_py, h0]
    rfl
  · rw [Triad.sieve_pi_py, Triad.sieve_primes_bool_py, h0]
    rfl
  · rw [TriadFull.sieve_totients, if_pos hN]

/-- Witness for C7 at `N = -1`. -/
theorem claim_C7_witness :
    (-1 : ℤ) < 0 ∧
    (Triad.sieve_phi_py (-1) = [] ∧ Triad.sieve_pi_py (-1) = [] ∧
     TriadFull.sieve_totients (-1) = Except.error PyErr.valueError) :=
  ⟨by decide, claim_C7 (-1) (by decide)⟩

/-- C8 counterexample: at `i = 2` with `phi_i = -1`, `pi_i = 0` the Ω-term
denominator `i * (phi_i + pi_i) = -2` is non-positive, yet triad.py's
`omega_term` raises nothing and yields the poisoned value `-1/2`,
contradicting the claim that the Ω-term computation raises exactly when its
denominator is non-positive. -/
theorem claim_C8_counterexample :
    (2 : ℤ) * ((-1) + 0) ≤ 0 ∧
    Triad.omega_term_py 2 (-1) 0 = Except.ok (-(1 / 2) : ℚ) := by
  constructor
  · decide
  · simp only [Triad.omega_term_py]
    norm_num

/-- C8 amended: triad.py's `omega_term` halts (`ZeroDivisionError`) exactly
when the integer denominator `i * (phi_i + pi_i)` is zero (for negative
denominators it silently returns a value), while triad_full.py's
`Omega_terms` (given adequately sized tables) fails exactly when some index
`i ∈ [2, N]` has `phi[i] + pi[i] ≤ 0`. -/
theorem claim_C8 (i phi_i pi_i : ℤ) (N : ℕ) (phi pi : List ℤ)
    (hphi : N + 1 ≤ phi.length) (hpi : N + 1 ≤ pi.length) :
    (Triad.omega_term_py i phi_i pi_i = Except.error PyErr.zeroDivisionError ↔
      i * (phi_i + pi_i) = 0) ∧
    ((TriadFull.Omega_terms N phi pi).isOk = false ↔
      ∃ k, 2 ≤ k ∧ k ≤ N ∧ phi.getD k 0 + pi.getD k 0 ≤ 0) := by
  constructor
  · rw [Triad.omega_term_py]
    by_cases h : i * (phi_i + pi_i) = 0
    · rw [if_pos h]
      exact ⟨fun _ => h, fun _ => rfl⟩
    · rw [if_neg h]
      constructor
      · intro hcontra
        exact absurd hcontra (by simp)
      · intro hcontra
        exact absurd hcontra h
  · rw [TriadFull.Omega_terms,
      if_neg (by push_neg; constructor <;> omega :
        ¬ (phi.length < N + 1 ∨ pi.length < N + 1))]
    have hmap : ∀ (x : Except PyErr (ℕ → ℚ)) (g : (ℕ → ℚ) → List ℚ),
        (x.map g).isOk = x.isOk := by
      intro x g
      cases x <;> rfl
    rw [hmap, TriadFull.omegaLoop_isOk]
    constructor
    · rintro ⟨k, hk, hle⟩
      have hmem := List.mem_range'_1.mp hk
      exact ⟨k, by omega, by omega, hle⟩
    · rintro ⟨k, h2, hN2, hle⟩
      refine ⟨k, List.mem_range'_1.mpr ⟨h2, by omega⟩, hle⟩

/-- Witness for C8 at `i = 2`, `phi_i = 1`, `pi_i = 0`, and
`N = 2` with tables `[0, 1, 1]`, `[0, 0, 1]`. -/
theorem claim_C8_witness :
    ((Triad.omega_term_py 2 1 0 = Except.error PyErr.zeroDivisionError ↔
      (2 : ℤ) * (1 + 0) = 0) ∧
     ((TriadFull.Omega_terms 2 [0, 1, 1] [0, 0, 1]).isOk = false ↔
      ∃ k, 2 ≤ k ∧ k ≤ 2 ∧
        ([0, 1, 1] : List ℤ).getD k 0 + ([0, 0, 1] : List ℤ).getD k 0 ≤ 0)) :=
  claim_C8 2 1 0 2 [0, 1, 1] [0, 0, 1] (by decide) (by decide)

namespace Tails

/-- The code's `pow(2.718281828459045, EULER_GAMMA)` is positive. -/
theorem egamma_pos : 0 < E_BASE ^ EULER_GAMMA :=
  Real.rpow_pos_of_pos (by norm_num [E_BASE]) _

/-- The code's `pow(2.718281828459045, EULER_GAMMA)` is below `10`. -/
theorem egamma_lt_ten : E_BASE ^ EULER_GAMMA < 10 := by
  have h1 : E_BASE ^ EULER_GAMMA ≤ E_BASE ^ (1 : ℝ) :=
    Real.rpow_le_rpow_of_exponent_le (by norm_num [E_BASE]) (by norm_num [EULER_GAMMA])
  rw [Real.rpow_one] at h1
  have h2 : E_BASE < 10 := by norm_num [E_BASE]
  linarith

/-- `ln 3 > 1` (since `e < 3`). -/
theorem one_lt_log_three : (1 : ℝ) < Real.log 3 := by
  rw [show (1 : ℝ) = Real.log (Real.exp 1) by rw [Real.log_exp]]
  apply Real.log_lt_log (Real.exp_pos 1)
  have := Real.exp_one_lt_d9
  linarith

/-- `ln x > 1` for `x ≥ 3`. -/
theorem one_lt_log_of_three_le (x : ℝ) (hx : 3 ≤ x) : 1 < Real.log x := by
  have := Real.log_le_log (by norm_num : (0 : ℝ) < 3) hx
  have := one_lt_log_three
  linarith

/-- The `R_E` formula is strictly decreasing on `[2, ∞)`. -/
theorem e_bound_strict_anti (a b : ℝ) (ha : 2 ≤ a) (hab : a < b) :
    (Real.log b + 1) / (b * Real.log 2) < (Real.log a + 1) / (a * Real.log 2) := by
  have hl2 : 0 < Real.log 2 := Real.log_pos (by norm_num)
  have ha0 : 0 < a := by linarith
  have hb0 : 0 < b := by linarith
  have hla : 0 < Real.log a := Real.log_pos (by linarith)
  have hkey : Real.log b ≤ Real.log a + (b - a) / a := by
    have hdiv : Real.log (b / a) ≤ b / a - 1 :=
      Real.log_le_sub_one_of_pos (by positivity)
    have hba : Real.log (b / a) = Real.log b - Real.log a :=
      Real.log_div (by linarith) (by linarith)
    have hfr : b / a - 1 = (b - a) / a := by
      field_simp
    rw [hba, hfr] at hdiv
    have : (b - a) / a ≤ (b - a) / a := le_refl _
    linarith [hdiv]
  rw [div_lt_div_iff (by positivity) (by positivity)]
  have hmain : a * (Real.log b + 1) < b * (Real.log a + 1) := by
    have h1 : a * Real.log b ≤ a * Real.log a + (b - a) := by
      calc a * Real.log b ≤ a * (Real.log a + (b - a) / a) :=
            mul_le_mul_of_nonneg_left hkey (le_of_lt ha0)
        _ = a * Real.log a + (b - a) := by
            field_simp
            ring
    have h2 : a * Real.log a < b * Real.log a := by
      nlinarith [hla, hab]
    nlinarith [h1, h2]
  nlinarith [mul_pos (sub_pos.mpr hmain) hl2]

/-- The `R_Omega` formula (at `D = 10`) is strictly decreasing on `[3, ∞)`. -/
theorem om_bound_strict_anti (a b : ℝ) (ha : 3 ≤ a) (hab : a < b) :
    (E_BASE ^ EULER_GAMMA * Real.log (Real.log b) + 10) / b <
      (E_BASE ^ EULER_GAMMA * Real.log (Real.log a) + 10) / a := by
  set G := E_BASE ^ EULER_GAMMA with hG
  have hGpos : 0 < G := egamma_pos
  have hGlt : G < 10 := egamma_lt_ten
  have ha0 : 0 < a := by linarith
  have hb0 : 0 < b := by linarith
  have hla1 : 1 < Real.log a := one_lt_log_of_three_le a ha
  have hlb1 : 1 < Real.log b := one_lt_log_of_three_le b (by linarith)
  have hlale : Real.log a ≤ Real.log b := Real.log_le_log ha0 hab.le
  have hlla : 0 < Real.log (Real.log a) := Real.log_pos hla1
  have hllb_le : Real.log (Real.log b) ≤
      Real.log (Real.log a) + (b - a) / (a * Real.log a) := by
    have hq : Real.log (Real.log b / Real.log a) =
        Real.log (Real.log b) - Real.log (Real.log a) :=
      Real.log_div (by linarith) (by linarith)
    have h1 : Real.log (Real.log b / Real.log a) ≤ Real.log b / Real.log a - 1 :=
      Real.log_le_sub_one_of_pos (by positivity)
    have h2 : Real.log b - Real.log a ≤ (b - a) / a := by
      have hdiv : Real.log (b / a) ≤ b / a - 1 :=
        Real.log_le_sub_one_of_pos (by positivity)
      have hba : Real.log (b / a) = Real.log b - Real.log a :=
        Real.log_div (by linarith) (by linarith)
      have hfr : b / a - 1 = (b - a) / a := by
        field_simp
      rw [hba, hfr] at hdiv
      exact hdiv
    have h4 : Real.log b / Real.log a - 1 =
        (Real.log b - Real.log a) / Real.log a := by
      field_simp
    have h5 : (Real.log b - Real.log a) / Real.log a ≤
        ((b - a) / a) / Real.log a :=
      (div_le_div_right (by linarith)).mpr h2
    have h6 : ((b - a) / a) / Real.log a = (b - a) / (a * Real.log a) := by
      rw [div_div]
    linarith [hq, h1, h4, h5, h6]
  rw [div_lt_div_iff hb0 ha0]
  have hstep : a * (G * Real.log (Real.log b)) ≤
      a * (G * Real.log (Real.log a)) + G * (b - a) / Real.log a := by
    calc a * (G * Real.log (Real.log b)) = (a * G) * Real.log (Real.log b) := by
          ring
      _ ≤ (a * G) * (Real.log (Real.log a) + (b - a) / (a * Real.log a)) := by
          apply mul_le_mul_of_nonneg_left hllb_le
          positivity
      _ = a * (G * Real.log (Real.log a)) + G * (b - a) / Real.log a := by
          field_simp
          ring
  have hfinal : G * (b - a) / Real.log a <
      (G * Real.log (Real.log a) + 10) * (b - a) := by
    have hba : 0 < b - a := by linarith
    have h1 : G / Real.log a < G := by
      rw [div_lt_iff (by linarith : 0 < Real.log a)]
      nlinarith [hGpos, hla1]
    have h2 : G < G * Real.log (Real.log a) + 10 := by
      nlinarith [hGlt, hlla, hGpos]
    calc G * (b - a) / Real.log a = (G / Real.log a) * (b - a) := by
          ring
      _ < G * (b - a) := mul_lt_mul_of_pos_right h1 hba
      _ < (G * Real.log (Real.log a) + 10) * (b - a) :=
          mul_lt_mul_of_pos_right h2 hba
  nlinarith [hstep, hfinal]

/-- Positivity of `R_Xi` for every integer input. -/
theorem xi_tb_pos (n : ℤ) : 0 < xi_tail_bound n := by
  rw [xi_tail_bound]
  have h2 : (2 : ℝ) ≤ ((max n 2 : ℤ) : ℝ) := by
    exact_mod_cast le_max_right n 2
  have hx : (0 : ℝ) < ((max n 2 : ℤ) : ℝ) := by linarith
  exact div_pos (by norm_num) (mul_pos hx hx)

/-- Positivity of `R_E` for every integer input. -/
theorem e_tb_pos (n : ℤ) : 0 < e_tail_bound n := by
  rw [e_tail_bound]
  have h2 : (2 : ℝ) ≤ ((max n 2 : ℤ) : ℝ) := by
    exact_mod_cast le_max_right n 2
  have hx : (0 : ℝ) < ((max n 2 : ℤ) : ℝ) := by linarith
  have hlog : 0 < Real.log ((max n 2 : ℤ) : ℝ) := Real.log_pos (by linarith)
  have hl2 : 0 < Real.log 2 := Real.log_pos (by norm_num)
  exact div_pos (by linarith) (mul_pos hx hl2)

/-- Positivity of `R_Omega` for every integer input and slack `D ≥ 0`. -/
theorem om_tb_pos (n : ℤ) (D : ℝ) (hD : 0 ≤ D) : 0 < omega_tail_bound n D := by
  rw [omega_tail_bound]
  have h3 : (3 : ℝ) ≤ ((max n 3 : ℤ) : ℝ) := by
    exact_mod_cast le_max_right n 3
  have hx : (0 : ℝ) < ((max n 3 : ℤ) : ℝ) := by linarith
  have hlog : 1 < Real.log ((max n 3 : ℤ) : ℝ) := one_lt_log_of_three_le _ h3
  have hllog : 0 < Real.log (Real.log ((max n 3 : ℤ) : ℝ)) := Real.log_pos hlog
  have := egamma_pos
  exact div_pos (by nlinarith) hx

/-- Antitonicity of `R_Xi` over the integers. -/
theorem xi_tb_anti (n n' : ℤ) (h : n ≤ n') : xi_tail_bound n' ≤ xi_tail_bound n := by
  rw [xi_tail_bound, xi_tail_bound]
  have hm : ((max n 2 : ℤ) : ℝ) ≤ ((max n' 2 : ℤ) : ℝ) := by
    exact_mod_cast max_le_max h (le_refl 2)
  have h2 : (2 : ℝ) ≤ ((max n 2 : ℤ) : ℝ) := by
    exact_mod_cast le_max_right n 2
  exact div_le_div_of_nonneg_left (by norm_num) (by nlinarith) (by nlinarith)

/-- Antitonicity of `R_E` over the integers. -/
theorem e_tb_anti (n n' : ℤ) (h : n ≤ n') : e_tail_bound n' ≤ e_tail_bound n := by
  rw [e_tail_bound, e_tail_bound]
  have hm : ((max n 2 : ℤ) : ℝ) ≤ ((max n' 2 : ℤ) : ℝ) := by
    exact_mod_cast max_le_max h (le_refl 2)
  have h2 : (2 : ℝ) ≤ ((max n 2 : ℤ) : ℝ) := by
    exact_mod_cast le_max_right n 2
  rcases eq_or_lt_of_le hm with he | hlt
  · rw [he]
  · exact (e_bound_strict_anti _ _ h2 hlt).le

/-- Antitonicity of `R_Omega` (at `D = 10`) over the integers. -/
theorem om_tb_anti (n n' : ℤ) (h : n ≤ n') :
    omega_tail_bound n' 10 ≤ omega_tail_bound n 10 := by
  rw [omega_tail_bound, omega_tail_bound]
  have hm : ((max n 3 : ℤ) : ℝ) ≤ ((max n' 3 : ℤ) : ℝ) := by
    exact_mod_cast max_le_max h (le_refl 3)
  have h3 : (3 : ℝ) ≤ ((max n 3 : ℤ) : ℝ) := by
    exact_mod_cast le_max_right n 3
  rcases eq_or_lt_of_le hm with he | hlt
  · rw [he]
  · exact (om_bound_strict_anti _ _ h3 hlt).le

/-- The `R_total` component of `triad_tail_bound` is the sum of the three
individual bounds. -/
theorem rtot_eq (n : ℤ) (D : ℝ) :
    (triad_tail_bound n D).2.2.2 =
      xi_tail_bound n + e_tail_bound n + omega_tail_bound n D := rfl

end Tails

/-- C2: for every integer `n` and constant `D`, `triad_tail_bound(n, D)` is
exactly the four-tuple `(R_Xi, R_E, R_Omega, R_total)` with
`R_Xi = 2/m²` (`m = max(n,2)`), `R_E = (ln m + 1)/(m ln 2)`,
`R_Omega = (pow(2.718281828459045, γ)·ln(ln k) + D)/k` (`k = max(n,3)`) and
`R_total` their sum; moreover the argument of `ln(ln ·)` is the clamped
`k ≥ 3`, whose logarithm exceeds `1`, so `ln(ln ·)` is never taken at an
unclamped `n` where it would be undefined. -/
theorem claim_C2 (n : ℤ) (D : ℝ) :
    Tails.triad_tail_bound n D =
      (2 / (max (n : ℝ) 2 * max (n : ℝ) 2),
       (Real.log (max (n : ℝ) 2) + 1) / (max (n : ℝ) 2 * Real.log 2),
       (Tails.E_BASE ^ Tails.EULER_GAMMA * Real.log (Real.log (max (n : ℝ) 3)) + D) /
         max (n : ℝ) 3,
       2 / (max (n : ℝ) 2 * max (n : ℝ) 2) +
         (Real.log (max (n : ℝ) 2) + 1) / (max (n : ℝ) 2 * Real.log 2) +
         (Tails.E_BASE ^ Tails.EULER_GAMMA * Real.log (Real.log (max (n : ℝ) 3)) + D) /
           max (n : ℝ) 3) ∧
    (3 : ℝ) ≤ max (n : ℝ) 3 ∧ 1 < Real.log (max (n : ℝ) 3) ∧
    0 < Real.log (Real.log (max (n : ℝ) 3)) := by
  have hc2 : ((max n 2 : ℤ) : ℝ) = max (n : ℝ) 2 := by
    push_cast
    rfl
  have hc3 : ((max n 3 : ℤ) : ℝ) = max (n : ℝ) 3 := by
    push_cast
    rfl
  have h3 : (3 : ℝ) ≤ max (n : ℝ) 3 := le_max_right _ _
  have hlog : 1 < Real.log (max (n : ℝ) 3) := Tails.one_lt_log_of_three_le _ h3
  refine ⟨?_, h3, hlog, Real.log_pos hlog⟩
  rw [Tails.triad_tail_bound, Tails.xi_tail_bound, Tails.e_tail_bound,
    Tails.omega_tail_bound, hc2, hc3]

/-- C3: with the default `D = 10.0`, each of `R_Xi(n)`, `R_E(n)`,
`R_Omega(n)` and `R_total(n)` is strictly positive for every integer `n`,
each is non-increasing as `n` increases, and each is strictly decreasing
once `3 ≤ n < n'`. -/
theorem claim_C3 (n n' : ℤ) (h : n ≤ n') :
    (0 < Tails.xi_tail_bound n ∧ 0 < Tails.e_tail_bound n ∧
     0 < Tails.omega_tail_bound n 10 ∧
     0 < (Tails.triad_tail_bound n 10).2.2.2) ∧
    (Tails.xi_tail_bound n' ≤ Tails.xi_tail_bound n ∧
     Tails.e_tail_bound n' ≤ Tails.e_tail_bound n ∧
     Tails.omega_tail_bound n' 10 ≤ Tails.omega_tail_bound n 10 ∧
     (Tails.triad_tail_bound n' 10).2.2.2 ≤ (Tails.triad_tail_bound n 10).2.2.2) ∧
    (3 ≤ n → n < n' →
      Tails.xi_tail_bound n' < Tails.xi_tail_bound n ∧
      Tails.e_tail_bound n' < Tails.e_tail_bound n ∧
      Tails.omega_tail_bound n' 10 < Tails.omega_tail_bound n 10 ∧
      (Tails.triad_tail_bound n' 10).2.2.2 <
        (Tails.triad_tail_bound n 10).2.2.2) := by
  refine ⟨⟨Tails.xi_tb_pos n, Tails.e_tb_pos n,
    Tails.om_tb_pos n 10 (by norm_num), ?_⟩,
    ⟨Tails.xi_tb_anti n n' h, Tails.e_tb_anti n n' h,
     Tails.om_tb_anti n n' h, ?_⟩, ?_⟩
  · rw [Tails.rtot_eq]
    have h1 := Tails.xi_tb_pos n
    have h2 := Tails.e_tb_pos n
    have h3 := Tails.om_tb_pos n 10 (by norm_num)
    linarith
  · rw [Tails.rtot_eq, Tails.rtot_eq]
    have h1 := Tails.xi_tb_anti n n' h
    have h2 := Tails.e_tb_anti n n' h
    have h3 := Tails.om_tb_anti n n' h
    linarith
  · intro h3n hlt
    have hmax2 : max n 2 = n := max_eq_left (by omega)
    have hmax2' : max n' 2 = n' := max_eq_left (by omega)
    have hmax3 : max n 3 = n := max_eq_left (by omega)
    have hmax3' : max n' 3 = n' := max_eq_left (by omega)
    have hc2 : ((max n 2 : ℤ) : ℝ) < ((max n' 2 : ℤ) : ℝ) := by
      rw [hmax2, hmax2']
      exact_mod_cast hlt
    have hc2a : (2 : ℝ) ≤ ((max n 2 : ℤ) : ℝ) := by
      exact_mod_cast le_max_right n 2
    have hc3 : ((max n 3 : ℤ) : ℝ) < ((max n' 3 : ℤ) : ℝ) := by
      rw [hmax3, hmax3']
      exact_mod_cast hlt
    have hc3a : (3 : ℝ) ≤ ((max n 3 : ℤ) : ℝ) := by
      exact_mod_cast le_max_right n 3
    have hxi : Tails.xi_tail_bound n' < Tails.xi_tail_bound n := by
      rw [Tails.xi_tail_bound, Tails.xi_tail_bound]
      exact div_lt_div_of_pos_left (by norm_num) (by nlinarith) (by nlinarith)
    have he : Tails.e_tail_bound n' < Tails.e_tail_bound n := by
      rw [Tails.e_tail_bound, Tails.e_tail_bound]
      exact Tails.e_bound_strict_anti _ _ hc2a hc2
    have hom : Tails.omega_tail_bound n' 10 < Tails.omega_tail_bound n 10 := by
      rw [Tails.omega_tail_bound, Tails.omega_tail_bound]
      exact Tails.om_bound_strict_anti _ _ hc3a hc3
    refine ⟨hxi, he, hom, ?_⟩
    rw [Tails.rtot_eq, Tails.rtot_eq]
    linarith

/-- Witness for C3 at `n = 3`, `n' = 4`. -/
theorem claim_C3_witness :
    (0 < Tails.xi_tail_bound 3 ∧ 0 < Tails.e_tail_bound 3 ∧
     0 < Tails.omega_tail_bound 3 10 ∧
     0 < (Tails.triad_tail_bound 3 10).2.2.2) ∧
    (Tails.xi_tail_bound 4 ≤ Tails.xi_tail_bound 3 ∧
     Tails.e_tail_bound 4 ≤ Tails.e_tail_bound 3 ∧
     Tails.omega_tail_bound 4 10 ≤ Tails.omega_tail_bound 3 10 ∧
     (Tails.triad_tail_bound 4 10).2.2.2 ≤ (Tails.triad_tail_bound 3 10).2.2.2) ∧
    ((3 : ℤ) ≤ 3 → (3 : ℤ) < 4 →
      Tails.xi_tail_bound 4 < Tails.xi_tail_bound 3 ∧
      Tails.e_tail_bound 4 < Tails.e_tail_bound 3 ∧
      Tails.omega_tail_bound 4 10 < Tails.omega_tail_bound 3 10 ∧
      (Tails.triad_tail_bound 4 10).2.2.2 <
        (Tails.triad_tail_bound 3 10).2.2.2) :=
  claim_C3 3 4 (by norm_num)

namespace Triad

/-- Searching `range' s len` for the value `t` finds `t` when it is in
range. -/
theorem range'_find?_eq : ∀ (len s t : ℕ), s ≤ t → t < s + len →
    (List.range' s len).find? (fun m => m == t) = some t := by
  intro len
  induction len with
  | zero =>
    intro s t h1 h2
    omega
  | succ len ih =>
    intro s t h1 h2
    rw [List.range'_succ]
    by_cases hst : s = t
    · subst hst
      rw [List.find?_cons_of_pos _ (by simp)]
    · rw [List.find?_cons_of_neg _ (by simp [hst])]
      exact ih (s + 1) t (by omega) (by omega)

/-- The record the Certification Composer captures for `N_ref` from the
stream: the unique record with first component `N_ref`. -/
theorem stream_find? (N Nref : ℕ) (phi pi : List ℕ) (h1 : 1 ≤ Nref)
    (h2 : Nref ≤ N) :
    (stream_prefix_values N phi pi).find? (fun r => r.1 == Nref) =
      some (Nref, Xi Nref, Omega Nref phi pi, E Nref,
            Xi Nref + Omega Nref phi pi - E Nref) := by
  rw [stream_prefix_values_eq, List.find?_map]
  have hcomp : ((fun r : ℕ × ℝ × ℝ × ℝ × ℝ => r.1 == Nref) ∘
      (fun m => (m, Xi m, Omega m phi pi, E m,
        Xi m + Omega m phi pi - E m))) = fun m => m == Nref := rfl
  rw [hcomp, range'_find?_eq N 1 Nref h1 (by omega)]
  rfl

end Triad

/-- C4: the Certification Composer, given nonempty sample points and a
reference index `N_ref ≥ 1` captured from the stream, emits exactly the
kappa interval `[F(N_ref) − R_total(N_ref), F(N_ref) + R_total(N_ref)]`,
whose lower endpoint is `≤` its upper endpoint at the default `D = 10`. -/
theorem claim_C4 (p : ℕ) (ps : List ℕ) (Nref : ℕ) (D : ℝ) (h1 : 1 ≤ Nref) :
    Sanity.compute_values (p :: ps) Nref D =
      Except.ok
        (Triad.F Nref (Triad.sieve_phi (max (ps.foldl max p) Nref))
            (Triad.sieve_pi (max (ps.foldl max p) Nref)) -
          (Tails.triad_tail_bound (Nref : ℤ) D).2.2.2,
         Triad.F Nref (Triad.sieve_phi (max (ps.foldl max p) Nref))
            (Triad.sieve_pi (max (ps.foldl max p) Nref)) +
          (Tails.triad_tail_bound (Nref : ℤ) D).2.2.2) ∧
    (D = 10 →
      Triad.F Nref (Triad.sieve_phi (max (ps.foldl max p) Nref))
          (Triad.sieve_pi (max (ps.foldl max p) Nref)) -
        (Tails.triad_tail_bound (Nref : ℤ) D).2.2.2 ≤
      Triad.F Nref (Triad.sieve_phi (max (ps.foldl max p) Nref))
          (Triad.sieve_pi (max (ps.foldl max p) Nref)) +
        (Tails.triad_tail_bound (Nref : ℤ) D).2.2.2) := by
  have hN : Nref ≤ max (ps.foldl max p) Nref := le_max_right _ _
  have hfind := Triad.stream_find? (max (ps.foldl max p) Nref) Nref
    (Triad.sieve_phi (max (ps.foldl max p) Nref))
    (Triad.sieve_pi (max (ps.foldl max p) Nref)) h1 hN
  constructor
  · simp only [Sanity.compute_values]
    rw [hfind]
    rfl
  · intro hD
    subst hD
    have hpos : 0 < (Tails.triad_tail_bound (Nref : ℤ) 10).2.2.2 := by
      rw [Tails.rtot_eq]
      have hx := Tails.xi_tb_pos (Nref : ℤ)
      have he := Tails.e_tb_pos (Nref : ℤ)
      have ho := Tails.om_tb_pos (Nref : ℤ) 10 (by norm_num)
      linarith
    linarith

/-- Witness for C4 at `points = [2]`, `N_ref = 1`, `D = 10`. -/
theorem claim_C4_witness :
    Sanity.compute_values [2] 1 10 =
      Except.ok
        (Triad.F 1 (Triad.sieve_phi (max (List.foldl max 2 []) 1))
            (Triad.sieve_pi (max (List.foldl max 2 []) 1)) -
          (Tails.triad_tail_bound ((1 : ℕ) : ℤ) 10).2.2.2,
         Triad.F 1 (Triad.sieve_phi (max (List.foldl max 2 []) 1))
            (Triad.sieve_pi (max (List.foldl max 2 []) 1)) +
          (Tails.triad_tail_bound ((1 : ℕ) : ℤ) 10).2.2.2) ∧
    ((10 : ℝ) = 10 →
      Triad.F 1 (Triad.sieve_phi (max (List.foldl max 2 []) 1))
          (Triad.sieve_pi (max (List.foldl max 2 []) 1)) -
        (Tails.triad_tail_bound ((1 : ℕ) : ℤ) 10).2.2.2 ≤
      Triad.F 1 (Triad.sieve_phi (max (List.foldl max 2 []) 1))
          (Triad.sieve_pi (max (List.foldl max 2 []) 1)) +
        (Tails.triad_tail_bound ((1 : ℕ) : ℤ) 10).2.2.2) :=
  claim_C4 2 [] 1 10 (by norm_num)
